/-
Verification of core PicoClaw subsystems.

This file gives a shallow embedding, in Lean 4, of the parts of the
PicoClaw agent runtime that the checked properties are about:

  * the memory retrieval pipeline of pkg/agent/memory.go
    (chunk splitting, keyword scoring, the quadratic swap sort, the
    top-limit selection and joining),
  * the daily-note append of pkg/agent/memory.go,
  * the session turn partitioning and relevance selection of the
    session package,
  * the hook dispatcher of pkg/hooks/dispatcher.go,
  * the end-to-end CTR encryption wrappers of
    pkg/channels/botschat_e2e.go, and
  * the OpenAI-compatible HTTP handler of pkg/openaiapi/handler.go.

Go strings are modeled as lists of characters; all inputs of interest
are ASCII, and the Go Unicode case conversions are modeled on the ASCII
range, which is exact for ASCII data.  Functions that loop with an index
in Go are translated to structural recursions carrying the same index,
and the two loops that advance by a computed amount (substring split and
the quadratic sort) are given a fuel argument equal to the loop bound
used by the Go code, so every definition evaluates by kernel reduction.
-/
import Mathlib

set_option maxRecDepth 10000

namespace PicoClaw

open List

/-- Go strings, modeled as lists of characters. -/
abbrev GoStr := List Char

/-- Whitespace characters trimmed by Go strings.TrimSpace (ASCII range). -/
def goIsSpace (c : Char) : Bool :=
  c = ' ' || c = '\t' || c = '\n' || c = '\x0b' || c = '\x0c' || c = '\r'

/-- Go strings.TrimSpace (ASCII range). -/
def goTrim (s : GoStr) : GoStr :=
  ((s.dropWhile goIsSpace).reverse.dropWhile goIsSpace).reverse

/-- Go unicode lower-casing of one character, on the ASCII range. -/
def goLowerChar (c : Char) : Char :=
  if 'A' ≤ c ∧ c ≤ 'Z' then Char.ofNat (c.toNat + 32) else c

/-- Go strings.ToLower (ASCII range). -/
def goLower (s : GoStr) : GoStr := s.map goLowerChar

/-- Go strings.Contains s sub: sub occurs contiguously inside s. -/
def goContains (s sub : GoStr) : Bool :=
  match s with
  | [] => sub.isEmpty
  | c :: cs => List.isPrefixOf sub (c :: cs) || goContains cs sub

/-- Run of the Go strings.Split scan: fuel bounds the number of characters
still to be consumed, cur is the reversed current field. -/
def goSplitF (sep : GoStr) : Nat → GoStr → GoStr → List GoStr
  | _, [], cur => [cur.reverse]
  | 0, s, cur => [cur.reverse ++ s]
  | Nat.succ n, c :: cs, cur =>
    if sep ≠ [] ∧ List.isPrefixOf sep (c :: cs) then
      cur.reverse :: goSplitF sep n ((c :: cs).drop sep.length) []
    else
      goSplitF sep n cs (c :: cur)

/-- Go strings.Split for a non-empty separator. -/
def goSplit (sep s : GoStr) : List GoStr :=
  goSplitF sep s.length s []

/-- Accumulating run of Go strings.FieldsFunc. -/
def goFieldsAux (p : Char → Bool) : GoStr → GoStr → List GoStr
  | [], cur => if cur = [] then [] else [cur.reverse]
  | c :: cs, cur =>
    if p c then
      if cur = [] then goFieldsAux p cs [] else cur.reverse :: goFieldsAux p cs []
    else
      goFieldsAux p cs (c :: cur)

/-- Go strings.FieldsFunc: maximal runs of characters rejected by p. -/
def goFieldsFunc (p : Char → Bool) (s : GoStr) : List GoStr :=
  goFieldsAux p s []

/-- Go strings.Join: pieces joined with sep between consecutive pieces. -/
def goJoin (sep : GoStr) : List GoStr → GoStr
  | [] => []
  | [x] => x
  | x :: y :: xs => x ++ sep ++ goJoin sep (y :: xs)

/-! ## Memory engine (pkg/agent/memory.go) -/

/-- Element of the scored chunk list built by MemoryStore.Retrieve.
Scores are natural numbers: the Go int score only ever accumulates
non-negative additions. -/
structure MemoryChunk where
  text : GoStr
  score : Nat
deriving DecidableEq

/-- Memory tokenizeForMatch: fields of lowercase-letter runs, keeping
words of length at least 2. -/
def tokenizeForMatch (s : GoStr) : List GoStr :=
  (goFieldsFunc (fun c => decide (c < 'a') || decide ('z' < c)) s).filter
    (fun w => 2 ≤ w.length)

/-- Memory scoreChunk: 10 when the lowered query occurs in the lowered
chunk, plus 1 for each query word occurring in the lowered chunk. -/
def scoreChunk (chunkText queryLower : GoStr) (queryWords : List GoStr) : Nat :=
  (if goContains (goLower chunkText) queryLower then 10 else 0) +
    queryWords.countP (fun w => goContains (goLower chunkText) w)

/-- Memory splitMemoryChunks: split at section boundaries, then at
paragraph breaks, trimming and discarding empties, with the raw content
as fallback when everything was discarded but the content is not blank. -/
def splitMemoryChunks (content : GoStr) : List GoStr :=
  let chunks :=
    (goSplit ("\n## ".data) content).flatMap (fun block =>
      let b := goTrim block
      if b = [] then []
      else ((goSplit ("\n\n".data) b).map goTrim).filter (fun p => p ≠ []))
  if chunks = [] ∧ goTrim content ≠ [] then [content] else chunks

/-- Inner pass of the quadratic swap sort shared by MemoryStore.Retrieve
and SelectRelevantTurns: given the current element at position i and the
elements after it, return the element left at position i after the pass
together with the elements after position i in their post-pass order. -/
def selPass (score : α → Nat) (x : α) : List α → α × List α
  | [] => (x, [])
  | y :: ys =>
    if score x < score y then
      let p := selPass score y ys
      (p.1, x :: p.2)
    else
      let p := selPass score x ys
      (p.1, y :: p.2)

/-- Outer loop of the quadratic swap sort; the fuel equals the number of
outer iterations, which the Go code runs once per element. -/
def selSortFuel (score : α → Nat) : Nat → List α → List α
  | 0, l => l
  | _ + 1, [] => []
  | n + 1, x :: xs =>
    let p := selPass score x xs
    p.1 :: selSortFuel score n p.2

/-- The quadratic sort by descending score used by MemoryStore.Retrieve
and SelectRelevantTurns. -/
def selSort (score : α → Nat) (l : List α) : List α :=
  selSortFuel score l.length l

/-- Scoring stage of MemoryStore.Retrieve: trim each raw chunk, drop
empties, and attach the keyword score. -/
def scoreQueryChunks (rawChunks : List GoStr) (query : GoStr) : List MemoryChunk :=
  let queryLower := goLower (goTrim query)
  let queryWords := tokenizeForMatch queryLower
  rawChunks.filterMap (fun t =>
    let t2 := goTrim t
    if t2 = [] then none else some ⟨t2, scoreChunk t2 queryLower queryWords⟩)

/-- Separator used between chunks emitted by MemoryStore.Retrieve. -/
def memorySep : GoStr := "\n\n---\n\n".data

/-- Scored chunks of a long-term content for a query, as built inside
MemoryStore.Retrieve. -/
def scoredChunks (longTerm query : GoStr) : List MemoryChunk :=
  scoreQueryChunks (splitMemoryChunks longTerm) query

/-- Output loop of MemoryStore.Retrieve: iterate over the sorted chunks
with index i, stop at the limit or at the first non-positive score after
the first chunk, writing the separator before every chunk but the first. -/
def retrieveJoin : List MemoryChunk → Nat → Nat → GoStr
  | [], _, _ => []
  | c :: rest, limit, i =>
    if limit ≤ i then []
    else if c.score ≤ 0 ∧ 0 < i then []
    else (if 0 < i then memorySep else []) ++ c.text ++ retrieveJoin rest limit (i + 1)

/-- MemoryStore.Retrieve as a function of the long-term file content:
defaults the limit to 10 when non-positive, returns empty on empty
content, splits and scores chunks, sorts by descending score, and joins
the selected chunks. -/
def retrieve (longTerm query : GoStr) (limit : Int) : GoStr :=
  let effLimit : Nat := if limit ≤ 0 then 10 else limit.toNat
  if longTerm = [] then []
  else
    let rawChunks := splitMemoryChunks longTerm
    if rawChunks = [] then []
    else
      let chunks := scoreQueryChunks rawChunks query
      let sorted := selSort MemoryChunk.score chunks
      retrieveJoin sorted (min effLimit sorted.length) 0

/-! ## Session selection (session package) -/

/-- Conversation message, with the fields the session selector reads. -/
structure Message where
  role : GoStr
  content : GoStr
deriving DecidableEq

/-- Conversation turn: half-open index range with the concatenated text
used for scoring. -/
structure Turn where
  startIndex : Nat
  endIndex : Nat
  text : GoStr
deriving DecidableEq

/-- Length of the run of non-user messages at the head of a list; this is
how far the inner scan of PartitionTurns advances the turn end. -/
def scanEndLen : List Message → Nat
  | [] => 0
  | m :: ms => if m.role = "user".data then 0 else scanEndLen ms + 1

/-- Scoring text of a turn: non-empty contents joined by single spaces. -/
def turnText (msgs : List Message) : GoStr :=
  goJoin (" ".data)
    (msgs.filterMap (fun m => if m.content = [] then none else some m.content))

/-- PartitionTurns sweep: rem is the suffix of the message list starting
at absolute index i; the fuel bounds the remaining length. -/
def partGoF : Nat → List Message → Nat → List Turn
  | _, [], _ => []
  | 0, _, _ => []
  | fuel + 1, m :: rest, i =>
    if m.role = "user".data then
      let k := scanEndLen rest
      ⟨i, i + 1 + k, turnText (m :: rest.take k)⟩ ::
        partGoF fuel (rest.drop k) (i + 1 + k)
    else
      partGoF fuel rest (i + 1)

/-- PartitionTurns: split a message list into turns, each starting at a
user message and running up to the next user message. -/
def partitionTurns (messages : List Message) : List Turn :=
  partGoF messages.length messages 0

/-- Session scoreTurn: like scoreChunk, but the 10-point bonus also
requires the query to be non-empty. -/
def scoreTurn (text queryLower : GoStr) (queryWords : List GoStr) : Nat :=
  (if queryLower ≠ [] ∧ goContains (goLower text) queryLower then 10 else 0) +
    queryWords.countP (fun w => goContains (goLower text) w)

/-- Scored turn record built by SelectRelevantTurns, remembering the
original position. -/
structure ScoredTurn where
  turn : Turn
  score : Nat
  idx : Nat
deriving DecidableEq

/-- Scoring loop of SelectRelevantTurns: one scored record per turn, in
order, carrying the running index. -/
def buildScored (queryLower : GoStr) (queryWords : List GoStr) :
    List Turn → Nat → List ScoredTurn
  | [], _ => []
  | t :: ts, i =>
    ⟨t, scoreTurn t.text queryLower queryWords, i⟩ ::
      buildScored queryLower queryWords ts (i + 1)

/-- Selection loop of SelectRelevantTurns over the sorted records: skip a
record only when the budget is exhausted and its index is already
selected, otherwise mark any unselected index and count it. -/
def selLoop : List ScoredTurn → List Nat → Nat → Nat → List Nat
  | [], sel, _, _ => sel
  | s :: rest, sel, cnt, limit =>
    if limit ≤ cnt ∧ s.idx ∈ sel then
      selLoop rest sel cnt limit
    else if s.idx ∉ sel then
      selLoop rest (s.idx :: sel) (cnt + 1) limit
    else
      selLoop rest sel cnt limit

/-- Output loop of SelectRelevantTurns: emit, in original order, the
turns whose index was selected. -/
def buildOut : List Turn → Nat → List Nat → List Turn
  | [], _, _ => []
  | t :: ts, i, sel =>
    if i ∈ sel then t :: buildOut ts (i + 1) sel else buildOut ts (i + 1) sel

/-- SelectRelevantTurns: score every turn, always include the last
min(fallbackKeep, n) turns, run the top-limit selection over the turns
sorted by descending score, and emit the selected turns in original
order.  Limit defaults to 20 and fallbackKeep to 8 when non-positive. -/
def selectRelevantTurns (turns : List Turn) (query : GoStr)
    (limit fallbackKeep : Int) : List Turn :=
  let q := goTrim query
  let queryLower := goLower q
  let queryWords := tokenizeForMatch queryLower
  let limitN : Nat := if limit ≤ 0 then 20 else limit.toNat
  let fallbackN : Nat := if fallbackKeep ≤ 0 then 8 else fallbackKeep.toNat
  let scoredTurns := buildScored queryLower queryWords turns 0
  let lastN := min fallbackN turns.length
  let sorted := selSort ScoredTurn.score scoredTurns
  let selected := selLoop sorted [] 0 limitN
  let selectedAll := selected ++ List.range' (turns.length - lastN) lastN
  buildOut turns 0 selectedAll

/-! ## Daily notes (MemoryStore.AppendToday) -/

/-- Filesystem abstraction: file path to contents, absent files mapped to
none.  Reads of absent files yield the empty string, as os.ReadFile
errors are ignored by AppendToday. -/
def Fs := GoStr → Option GoStr

/-- Path of the daily note for a YYYYMMDD date string, relative to the
workspace: memory/YYYYMM/YYYYMMDD.md. -/
def todayFilePath (workspace dateCompact : GoStr) : GoStr :=
  workspace ++ "/memory/".data ++ dateCompact.take 6 ++ "/".data ++
    dateCompact ++ ".md".data

/-- AppendToday: read the daily file (absent meaning empty), prepend the
dated header when it was empty, otherwise append a newline and the
content, and write the file back.  dateCompact is the wall clock
formatted YYYYMMDD, dateISO the same instant formatted YYYY-MM-DD. -/
def appendToday (fs : Fs) (workspace dateCompact dateISO content : GoStr) : Fs :=
  let path := todayFilePath workspace dateCompact
  let existing := (fs path).getD []
  let newContent :=
    if existing = [] then "# ".data ++ dateISO ++ "\n\n".data ++ content
    else existing ++ "\n".data ++ content
  fun p => if p = path then some newContent else fs p

/-! ## E2E encryption (pkg/channels/botschat_e2e.go)

The repository code delegates the keystream to the Go standard library
(aes.NewCipher and cipher.NewCTR seeded with an HMAC-derived nonce);
those primitives are outside the repository, so the keystream is a
parameter here: ks key nonce i is the i-th keystream byte, and nonceF
key contextId is the derived nonce.  Both wrappers feed the same
parameters, which is all the round-trip property depends on. -/

/-- Bytes, as natural numbers below 256 in all uses of interest. -/
abbrev Bytes := List Nat

/-- XORKeyStream of a CTR stream: byte i of the output is byte i of the
input xored with keystream byte i (keystream bytes reduced mod 256). -/
def xorKeyStream (ksBytes : Nat → Nat) : Nat → Bytes → Bytes
  | _, [] => []
  | i, b :: bs => (b ^^^ ksBytes i % 256) :: xorKeyStream ksBytes (i + 1) bs

/-- encryptE2EBytes: reject keys whose length is not 32, then xor the
plaintext with the keystream derived from the key and context id. -/
def encryptE2EBytes (ks : Bytes → Bytes → Nat → Nat) (nonceF : Bytes → GoStr → Bytes)
    (key : Bytes) (plaintext : Bytes) (contextId : GoStr) : Except GoStr Bytes :=
  if key.length ≠ 32 then Except.error ("e2e: key must be 32 bytes".data)
  else Except.ok (xorKeyStream (ks key (nonceF key contextId)) 0 plaintext)

/-- decryptE2EBytes: identical structure to encryptE2EBytes applied to
the ciphertext. -/
def decryptE2EBytes (ks : Bytes → Bytes → Nat → Nat) (nonceF : Bytes → GoStr → Bytes)
    (key : Bytes) (ciphertext : Bytes) (contextId : GoStr) : Except GoStr Bytes :=
  if key.length ≠ 32 then Except.error ("e2e: key must be 32 bytes".data)
  else Except.ok (xorKeyStream (ks key (nonceF key contextId)) 0 ciphertext)

/-! ## Hook dispatcher (pkg/hooks/dispatcher.go)

A handler is Go code that either returns a Result or panics; this is
modeled as a function into Except, where an error carries the formatted
panic value.  Wall-clock durations are not modeled. -/

/-- Hook context snapshot fields the dispatcher itself reads. -/
structure HookCtx where
  turnId : GoStr
  sessionKey : GoStr
deriving DecidableEq

/-- Result record as returned by a handler body. -/
structure RawResult where
  status : GoStr
  message : GoStr
  err : Option GoStr
deriving DecidableEq

/-- Result record as returned by the dispatcher after normalization. -/
structure HookResult where
  status : GoStr
  message : GoStr
  err : Option GoStr
deriving DecidableEq

/-- Registered hook handler: a name and a body that returns a result or
panics with a value. -/
structure HookHandler where
  name : GoStr
  handle : HookCtx → Except GoStr RawResult

/-- runHandler: recover a panic into an error-status result carrying the
handler name and panic value; otherwise normalize an empty status from
the error field and synthesize an error for error-status results that
carry none. -/
def runHandler (h : HookHandler) (ctx : HookCtx) : HookResult :=
  match h.handle ctx with
  | Except.error v =>
    { status := "error".data
      message := "hook panic recovered".data
      err := some ("panic in hook ".data ++ h.name ++ ": ".data ++ v) }
  | Except.ok r =>
    let st :=
      if r.status = [] then (if r.err ≠ none then "error".data else "ok".data)
      else r.status
    let er :=
      if st = "error".data ∧ r.err = none then some ("hook error: ".data ++ r.message)
      else r.err
    { status := st, message := r.message, err := er }

/-- Dispatch: run every registered handler of the event in registration
order, collecting one result per handler. -/
def dispatch (handlers : List HookHandler) (ctx : HookCtx) : List HookResult :=
  handlers.map (fun h => runHandler h ctx)

/-! ## OpenAI-compatible endpoint (pkg/openaiapi/handler.go)

The JSON layer is abstracted: a request body is either a decoded request
record or none when the body does not decode (invalid JSON, oversized
body).  Message content mirrors the dynamic JSON value the Go code
inspects: null, a string, a list whose elements are part objects or
non-objects, or any other JSON value. -/

/-- Content part object: absent string fields are the empty string, as
produced by the failed Go type assertions. -/
structure JPart where
  ptype : GoStr
  text : GoStr
  inputText : GoStr
deriving DecidableEq

/-- Dynamic JSON content of a chat message. -/
inductive JContent where
  | null
  | str (s : GoStr)
  | arr (parts : List (Option JPart))
  | other
deriving DecidableEq

/-- Chat message of the OpenAI-compatible request. -/
structure OMsg where
  role : GoStr
  content : JContent
  name : GoStr
deriving DecidableEq

/-- Decoded chat completion request. -/
structure ChatReq where
  model : GoStr
  messages : List OMsg
  stream : Bool
  user : GoStr
deriving DecidableEq

/-- Incoming HTTP request, reduced to the fields the handler reads; body
is none when the JSON body does not decode. -/
structure ApiRequest where
  method : GoStr
  authorization : GoStr
  body : Option ChatReq

/-- Text pieces collected by extractTextContent from a content part
list: text-typed parts contribute their text, and any part contributes
its input_text, each when non-empty. -/
def collectParts : List (Option JPart) → List GoStr
  | [] => []
  | none :: rest => collectParts rest
  | some p :: rest =>
    ((if p.ptype = "text".data ∧ p.text ≠ [] then [p.text] else []) ++
      (if p.inputText ≠ [] then [p.inputText] else [])) ++ collectParts rest

/-- extractTextContent: strings pass through, part lists are collected
and joined with newlines, anything else is empty. -/
def extractTextContent : JContent → GoStr
  | JContent.null => []
  | JContent.str s => s
  | JContent.arr parts => goJoin ("\n".data) (collectParts parts)
  | JContent.other => []

/-- buildPrompt sweep: accumulate system parts, the last user-or-tool
content, and the rendered history lines. -/
def buildPromptAux : List OMsg → List GoStr → GoStr → List GoStr → GoStr × GoStr
  | [], sysParts, lastUT, history =>
    if lastUT = [] then ([], goJoin ("\n\n".data) sysParts)
    else
      let sys := if sysParts ≠ [] then goJoin ("\n\n".data) sysParts else []
      if history.length ≤ 1 then (lastUT, sys)
      else (goJoin ("\n".data) history, sys)
  | m :: rest, sysParts, lastUT, history =>
    let role := goTrim m.role
    let content := goTrim (extractTextContent m.content)
    if role = [] ∨ content = [] then buildPromptAux rest sysParts lastUT history
    else
      let lrole := goLower role
      if lrole = "system".data ∨ lrole = "developer".data then
        buildPromptAux rest (sysParts ++ [content]) lastUT history
      else
        let role2 := if lrole = "function".data then "tool".data else role
        if role2 ≠ "user".data ∧ role2 ≠ "assistant".data ∧ role2 ≠ "tool".data then
          buildPromptAux rest sysParts lastUT history
        else
          let sender :=
            if role2 = "assistant".data then "Assistant".data
            else if role2 = "user".data then "User".data
            else if m.name ≠ [] then "Tool:".data ++ m.name
            else "Tool".data
          buildPromptAux rest sysParts content (history ++ [sender ++ ": ".data ++ content])

/-- buildPrompt: user-facing prompt and joined system prompt. -/
def buildPrompt (msgs : List OMsg) : GoStr × GoStr :=
  buildPromptAux msgs [] [] []

/-- extractBearerToken: case-insensitive "Bearer " prefix of the
Authorization header, with the rest trimmed. -/
def extractBearerToken (auth : GoStr) : GoStr :=
  if auth.length < 7 then []
  else if goLower (auth.take 7) = "bearer ".data then goTrim (auth.drop 7)
  else []

/-- validateBearerToken: membership of the token in the allowlist (the
Go constant-time comparison decides byte equality). -/
def validateBearerToken (token : GoStr) (allowed : List GoStr) : Bool :=
  if token = [] ∨ allowed = [] then false
  else allowed.any (fun a => a.length == token.length && a == token)

/-- Message that buildPrompt renders into the conversation: non-blank
role and extracted content, not a system or developer message, and with
a user, assistant, or tool role after the function alias. -/
def isContentMessage (m : OMsg) : Bool :=
  let role := goTrim m.role
  let content := goTrim (extractTextContent m.content)
  let lrole := goLower role
  let role2 := if lrole = "function".data then "tool".data else role
  role ≠ [] && content ≠ [] &&
    !(lrole = "system".data ∨ lrole = "developer".data) &&
    (role2 = "user".data ∨ role2 = "assistant".data ∨ role2 = "tool".data)

/-- ServeHTTP decision sequence of the chat-completions handler, reduced
to the HTTP status it writes; the downstream agent call is a parameter
returning either a response or an error. -/
def serveHTTP (bearerTokens : List GoStr) (req : ApiRequest)
    (agent : GoStr → GoStr → Except GoStr GoStr) : Nat :=
  if req.method ≠ "POST".data then 405
  else if bearerTokens = [] then 401
  else
    let token := extractBearerToken req.authorization
    if token = [] then 401
    else if !validateBearerToken token bearerTokens then 401
    else
      match req.body with
      | none => 400
      | some body =>
        if body.stream then 501
        else
          let pr := buildPrompt body.messages
          if pr.1 = [] then 400
          else
            let prompt := if pr.2 ≠ [] then pr.2 ++ "\n\n".data ++ pr.1 else pr.1
            let sessionKey :=
              if body.user ≠ [] then "openai:".data ++ body.user
              else "openai:default".data
            match agent prompt sessionKey with
            | Except.error _ => 500
            | Except.ok _ => 200

/-! ## Specification-side definitions

These definitions follow the wording of the specification, for
comparison against the code-derived definitions above. -/

/-- Score formula as the specification words it: 10 for the full query
occurring as a substring, plus 1 per distinct query token occurring. -/
def specDistinctScore (chunkText query : GoStr) : Nat :=
  let q := goLower (goTrim query)
  let cl := goLower chunkText
  (if goContains cl q then 10 else 0) +
    ((tokenizeForMatch q).dedup.countP (fun w => goContains cl w))

/-- Score formula with every token occurrence counted separately. -/
def specOccurrenceScore (chunkText query : GoStr) : Nat :=
  let q := goLower (goTrim query)
  let cl := goLower chunkText
  (if goContains cl q then 10 else 0) +
    ((tokenizeForMatch q).countP (fun w => goContains cl w))

/-- Role of the message at an index, when the index is in range. -/
def roleAt (msgs : List Message) (k : Nat) : Option GoStr :=
  (msgs[k]?).map Message.role

/-- Chunks the Retrieve output loop emits from the sorted list: the
first chunk unconditionally, then further chunks while the budget lasts
and scores stay positive. -/
def retrieveSelected : List MemoryChunk → Nat → List MemoryChunk
  | [], _ => []
  | _ :: _, 0 => []
  | c :: rest, k + 1 => c :: (rest.take k).takeWhile (fun x => 0 < x.score)

/-- Concatenation of chunks, each preceded by the memory separator. -/
def sepConcat : List MemoryChunk → GoStr
  | [] => []
  | c :: rest => memorySep ++ c.text ++ sepConcat rest

/-! # Theorems -/

/-! ## E2E round trip (claim C6) -/

theorem xorKeyStream_length (ksBytes : Nat → Nat) :
    ∀ (i : Nat) (bs : Bytes), (xorKeyStream ksBytes i bs).length = bs.length := by
  intro i bs
  induction bs generalizing i with
  | nil => rfl
  | cons b bs ih => simp [xorKeyStream, ih]

theorem xorKeyStream_involutive (ksBytes : Nat → Nat) :
    ∀ (i : Nat) (bs : Bytes), xorKeyStream ksBytes i (xorKeyStream ksBytes i bs) = bs := by
  intro i bs
  induction bs generalizing i with
  | nil => rfl
  | cons b bs ih =>
    simp [xorKeyStream, ih, Nat.xor_assoc, Nat.xor_self, Nat.xor_zero]

/-- C6: with a 32-byte key, encryption succeeds, the ciphertext has the
length of the plaintext, and decrypting the ciphertext with the same key
and context id returns the plaintext. -/
theorem e2e_roundtrip (ks : Bytes → Bytes → Nat → Nat) (nonceF : Bytes → GoStr → Bytes)
    (key x : Bytes) (ctx : GoStr) (hk : key.length = 32) :
    (∃ c, encryptE2EBytes ks nonceF key x ctx = Except.ok c) ∧
    ∀ c, encryptE2EBytes ks nonceF key x ctx = Except.ok c →
      c.length = x.length ∧ decryptE2EBytes ks nonceF key c ctx = Except.ok x := by
  have hne : ¬ key.length ≠ 32 := by simp [hk]
  constructor
  · exact ⟨xorKeyStream (ks key (nonceF key ctx)) 0 x, by simp [encryptE2EBytes, hne]⟩
  · intro c hc
    have hc2 : c = xorKeyStream (ks key (nonceF key ctx)) 0 x := by
      simpa [encryptE2EBytes, hne] using hc.symm
    subst hc2
    refine ⟨xorKeyStream_length _ _ _, ?_⟩
    simp [decryptE2EBytes, hne, xorKeyStream_involutive]

/-- C6 witness: round trip at a concrete key, keystream, plaintext, and
context id. -/
theorem e2e_roundtrip_witness :
    (∃ c, encryptE2EBytes (fun _ _ i => i + 7) (fun _ _ => []) (List.replicate 32 0)
        [5, 255] ("m".data) = Except.ok c) ∧
    ∀ c, encryptE2EBytes (fun _ _ i => i + 7) (fun _ _ => []) (List.replicate 32 0)
        [5, 255] ("m".data) = Except.ok c →
      c.length = [5, 255].length ∧
      decryptE2EBytes (fun _ _ i => i + 7) (fun _ _ => []) (List.replicate 32 0)
        c ("m".data) = Except.ok [5, 255] :=
  e2e_roundtrip (fun _ _ i => i + 7) (fun _ _ => []) (List.replicate 32 0)
    [5, 255] ("m".data) (by decide)

/-! ## Hook dispatch (claims C7 and C10) -/

/-- C7: dispatch returns one result per handler in registration order,
never propagates a panic (runHandler is total on the panic model), a
panicking handler yields the error-status panic result carrying its name
and the panic value, and handlers after any position still run. -/
theorem dispatch_order_and_panic (handlers : List HookHandler) (ctx : HookCtx) :
    (dispatch handlers ctx).length = handlers.length ∧
    (∀ i, (dispatch handlers ctx).get? i = (handlers.get? i).map (fun h => runHandler h ctx)) ∧
    (∀ h ∈ handlers, ∀ v, h.handle ctx = Except.error v →
      runHandler h ctx =
        ⟨"error".data, "hook panic recovered".data,
          some ("panic in hook ".data ++ h.name ++ ": ".data ++ v)⟩) ∧
    (∀ pre h post, handlers = pre ++ h :: post →
      dispatch handlers ctx =
        dispatch pre ctx ++ runHandler h ctx :: dispatch post ctx) := by
  refine ⟨by simp [dispatch], fun i => by simp [dispatch], ?_, ?_⟩
  · intro h _ v hv
    simp [runHandler, hv]
  · intro pre h post hsplit
    subst hsplit
    simp [dispatch]

/-- C7 witness: the panic conversion at a concrete panicking handler. -/
theorem dispatch_order_and_panic_witness :
    runHandler ⟨"boom".data, fun _ => Except.error ("bad".data)⟩ ⟨[], []⟩ =
      ⟨"error".data, "hook panic recovered".data,
        some ("panic in hook ".data ++ "boom".data ++ ": ".data ++ "bad".data)⟩ :=
  (dispatch_order_and_panic [⟨"boom".data, fun _ => Except.error ("bad".data)⟩]
      ⟨[], []⟩).2.2.1
    ⟨"boom".data, fun _ => Except.error ("bad".data)⟩ (by simp) ("bad".data) rfl

/-- C10 counterexample: a handler that returns a non-empty custom status
is passed through unchanged, so a dispatched result can have a status
that is neither ok nor error. -/
theorem dispatch_status_counterexample :
    (dispatch [⟨"w".data, fun _ => Except.ok ⟨"skipped".data, [], none⟩⟩] ⟨[], []⟩).map
        HookResult.status = ["skipped".data] ∧
      ¬ ("skipped".data = "ok".data ∨ ("skipped".data : GoStr) = "error".data) := by
  constructor
  · rfl
  · decide

/-- C10 amended: error-status results always carry an error; an empty
handler status is normalized from the handler error field; a non-empty
handler status is passed through unchanged; a panic yields error
status. -/
theorem dispatch_status_normalization (handlers : List HookHandler) (ctx : HookCtx) :
    (∀ r ∈ dispatch handlers ctx, r.status = "error".data → r.err ≠ none) ∧
    (∀ h ∈ handlers, ∀ r, h.handle ctx = Except.ok r →
      (r.status = [] → r.err ≠ none → (runHandler h ctx).status = "error".data) ∧
      (r.status = [] → r.err = none → (runHandler h ctx).status = "ok".data) ∧
      (r.status ≠ [] → (runHandler h ctx).status = r.status)) ∧
    (∀ h ∈ handlers, ∀ v, h.handle ctx = Except.error v →
      (runHandler h ctx).status = "error".data ∧ (runHandler h ctx).err ≠ none) := by
  refine ⟨?_, ?_, ?_⟩
  · intro r hr
    simp only [dispatch, List.mem_map] at hr
    obtain ⟨h, _, rfl⟩ := hr
    cases hh : h.handle ctx with
    | error v => intro _; simp [runHandler, hh]
    | ok raw =>
      intro hst hnone
      simp only [runHandler, hh] at hst hnone
      by_cases hcond : ((if raw.status = [] then
          (if raw.err ≠ none then "error".data else "ok".data) else raw.status) =
            "error".data ∧ raw.err = none)
      · rw [if_pos hcond] at hnone
        cases hnone
      · rw [if_neg hcond] at hnone
        exact hcond ⟨hst, hnone⟩
  · intro h _ r hh
    refine ⟨?_, ?_, ?_⟩
    · intro hst herr
      simp [runHandler, hh, hst, herr]
    · intro hst herr
      simp [runHandler, hh, hst, herr]
    · intro hst
      simp [runHandler, hh, hst]
  · intro h _ v hh
    simp [runHandler, hh]

/-- C10 witness: normalization facts at a concrete handler that returns
an empty status with no error. -/
theorem dispatch_status_normalization_witness :
    (runHandler ⟨"h".data, fun _ => Except.ok ⟨[], "m".data, none⟩⟩ ⟨[], []⟩).status =
      "ok".data :=
  ((dispatch_status_normalization [⟨"h".data, fun _ => Except.ok ⟨[], "m".data, none⟩⟩]
      ⟨[], []⟩).2.1
    ⟨"h".data, fun _ => Except.ok ⟨[], "m".data, none⟩⟩ (by simp)
    ⟨[], "m".data, none⟩ rfl).2.1 rfl rfl

/-! ## Daily notes (claim C4) -/

/-- C4 counterexample: appending b to a daily file holding a produces
the contents joined by a single newline, not by a blank line. -/
theorem appendToday_counterexample :
    appendToday
        (fun p => if p = todayFilePath ("w".data) ("20261011".data)
          then some ("a".data) else none)
        ("w".data) ("20261011".data) ("2026-10-11".data) ("b".data)
        (todayFilePath ("w".data) ("20261011".data)) = some ("a\nb".data) ∧
      ("a\nb".data : GoStr) ≠ ("a\n\nb".data : GoStr) := by
  constructor
  · decide
  · decide

/-- C4 amended: an empty or missing daily file is written as the dated
header followed by the content; a non-empty file is extended with a
newline and the content; no other file changes. -/
theorem appendToday_amended (fs : Fs) (ws dc di c : GoStr) :
    ((fs (todayFilePath ws dc)).getD [] = [] →
      appendToday fs ws dc di c (todayFilePath ws dc) =
        some ("# ".data ++ di ++ "\n\n".data ++ c)) ∧
    (∀ e, fs (todayFilePath ws dc) = some e → e ≠ [] →
      appendToday fs ws dc di c (todayFilePath ws dc) =
        some (e ++ "\n".data ++ c)) ∧
    (∀ p, p ≠ todayFilePath ws dc → appendToday fs ws dc di c p = fs p) := by
  refine ⟨?_, ?_, ?_⟩
  · intro hrd
    simp [appendToday, hrd]
  · intro e he hne
    simp [appendToday, he, hne]
  · intro p hp
    simp [appendToday, hp]

/-- C4 witness: header creation on a missing file at concrete inputs. -/
theorem appendToday_amended_witness :
    appendToday (fun _ => none) ("w".data) ("20261011".data) ("2026-10-11".data)
        ("note".data) (todayFilePath ("w".data) ("20261011".data)) =
      some ("# ".data ++ "2026-10-11".data ++ "\n\n".data ++ "note".data) :=
  (appendToday_amended (fun _ => none) ("w".data) ("20261011".data)
      ("2026-10-11".data) ("note".data)).1 (by decide)

/-! ## Chunk scoring (claim C3) -/

/-- C3 counterexample: for the query "ab ab" against the chunk "ab", the
pipeline score counts the repeated token twice, while the
distinct-token formula of the claim yields 1. -/
theorem scoreChunk_distinct_counterexample :
    scoreChunk ("ab".data) (goLower (goTrim ("ab ab".data)))
        (tokenizeForMatch (goLower (goTrim ("ab ab".data)))) = 2 ∧
      specDistinctScore ("ab".data) ("ab ab".data) = 1 := by
  constructor
  · decide
  · decide

/-- C3 amended: for queries with non-blank trimmed form, the score of
scoreChunk, and equally of scoreTurn, is 10 for the lowercased trimmed
query occurring as a substring of the lowercased chunk plus 1 per token
occurrence (repeats counted separately) occurring as a substring. -/
theorem scoreChunk_occurrence (chunkText query : GoStr) (hq : goTrim query ≠ []) :
    scoreChunk chunkText (goLower (goTrim query))
        (tokenizeForMatch (goLower (goTrim query))) =
      specOccurrenceScore chunkText query ∧
    scoreTurn chunkText (goLower (goTrim query))
        (tokenizeForMatch (goLower (goTrim query))) =
      specOccurrenceScore chunkText query := by
  have hql : goLower (goTrim query) ≠ [] := by
    simpa [goLower] using hq
  constructor
  · rfl
  · simp [scoreTurn, specOccurrenceScore, scoreChunk, hql]

/-- C3 witness: the amended formula at a concrete chunk and query. -/
theorem scoreChunk_occurrence_witness :
    scoreChunk ("the dog".data) (goLower (goTrim ("dog".data)))
        (tokenizeForMatch (goLower (goTrim ("dog".data)))) =
      specOccurrenceScore ("the dog".data) ("dog".data) ∧
    scoreTurn ("the dog".data) (goLower (goTrim ("dog".data)))
        (tokenizeForMatch (goLower (goTrim ("dog".data)))) =
      specOccurrenceScore ("the dog".data) ("dog".data) :=
  scoreChunk_occurrence ("the dog".data) ("dog".data) (by decide)

/-! ## OpenAI endpoint rejections (claim C9) -/

theorem validateBearerToken_true_iff (token : GoStr) (allowed : List GoStr) :
    validateBearerToken token allowed = true → token ≠ [] ∧ allowed ≠ [] := by
  intro hv
  by_cases h : token = [] ∨ allowed = []
  · simp [validateBearerToken, h] at hv
  · push_neg at h
    exact h

theorem buildPromptAux_no_content (msgs : List OMsg)
    (hmsgs : ∀ m ∈ msgs, isContentMessage m = false) :
    ∀ sysParts, (buildPromptAux msgs sysParts [] []).1 = [] := by
  induction msgs with
  | nil => intro sysParts; simp [buildPromptAux]
  | cons m rest ih =>
    intro sysParts
    have hm : isContentMessage m = false := hmsgs m (List.mem_cons_self m rest)
    have hrest : ∀ x ∈ rest, isContentMessage x = false := fun x hx =>
      hmsgs x (List.mem_cons_of_mem m hx)
    by_cases h1 : goTrim m.role = [] ∨ goTrim (extractTextContent m.content) = []
    · simp only [buildPromptAux, if_pos h1]
      exact ih hrest sysParts
    · by_cases h2 : goLower (goTrim m.role) = "system".data ∨
          goLower (goTrim m.role) = "developer".data
      · simp only [buildPromptAux, if_neg h1, if_pos h2]
        exact ih hrest _
      · by_cases h3 :
            (if goLower (goTrim m.role) = "function".data then "tool".data
              else goTrim m.role) ≠ "user".data ∧
            (if goLower (goTrim m.role) = "function".data then "tool".data
              else goTrim m.role) ≠ "assistant".data ∧
            (if goLower (goTrim m.role) = "function".data then "tool".data
              else goTrim m.role) ≠ "tool".data
        · simp only [buildPromptAux, if_neg h1, if_neg h2, if_pos h3]
          exact ih hrest sysParts
        · exfalso
          push_neg at h1
          simp only [isContentMessage, Bool.and_eq_false_iff] at hm
          push_neg at h3
          rcases hm with ((hc | hc) | hc) | hc

          · simp [h1.1] at hc
          · simp [h1.2] at hc
          · simp only [Bool.not_eq_false', decide_eq_true_eq] at hc
            exact h2 hc
          · simp only [decide_eq_false_iff_not] at hc
            by_cases hu : (if goLower (goTrim m.role) = "function".data then "tool".data
                else goTrim m.role) = "user".data
            · exact hc (Or.inl hu)
            · by_cases ha : (if goLower (goTrim m.role) = "function".data then "tool".data
                  else goTrim m.role) = "assistant".data
              · exact hc (Or.inr (Or.inl ha))
              · exact hc (Or.inr (Or.inr (h3 hu ha)))

/-- C9: the handler rejects non-POST requests with 405, unauthorized
requests with 401, undecodable bodies with 400, streaming requests with
501, and requests whose messages contain no renderable user, assistant,
or tool message with 400, in that order of precedence. -/
theorem serveHTTP_rejections (toks : List GoStr) (req : ApiRequest)
    (agent : GoStr → GoStr → Except GoStr GoStr) :
    (req.method ≠ "POST".data → serveHTTP toks req agent = 405) ∧
    (req.method = "POST".data →
      (extractBearerToken req.authorization = [] ∨
        validateBearerToken (extractBearerToken req.authorization) toks = false) →
      serveHTTP toks req agent = 401) ∧
    (req.method = "POST".data →
      validateBearerToken (extractBearerToken req.authorization) toks = true →
      req.body = none → serveHTTP toks req agent = 400) ∧
    (∀ b, req.method = "POST".data →
      validateBearerToken (extractBearerToken req.authorization) toks = true →
      req.body = some b → b.stream = true → serveHTTP toks req agent = 501) ∧
    (∀ b, req.method = "POST".data →
      validateBearerToken (extractBearerToken req.authorization) toks = true →
      req.body = some b → b.stream = false →
      (∀ m ∈ b.messages, isContentMessage m = false) →
      serveHTTP toks req agent = 400) := by
  refine ⟨?_, ?_, ?_, ?_, ?_⟩
  · intro hm
    simp [serveHTTP, hm]
  · intro hm hbad
    by_cases htoks : toks = []
    · simp [serveHTTP, hm, htoks]
    · rcases hbad with hbad | hbad
      · simp [serveHTTP, hm, htoks, hbad]
      · by_cases htok : extractBearerToken req.authorization = []
        · simp [serveHTTP, hm, htoks, htok]
        · simp [serveHTTP, hm, htoks, htok, hbad]
  · intro hm hv hb
    obtain ⟨htok, htoks⟩ := validateBearerToken_true_iff _ _ hv
    simp [serveHTTP, hm, htoks, htok, hv, hb]
  · intro b hm hv hb hs
    obtain ⟨htok, htoks⟩ := validateBearerToken_true_iff _ _ hv
    simp [serveHTTP, hm, htoks, htok, hv, hb, hs]
  · intro b hm hv hb hs hmsgs
    obtain ⟨htok, htoks⟩ := validateBearerToken_true_iff _ _ hv
    have hpr : (buildPromptAux b.messages [] [] []).1 = [] :=
      buildPromptAux_no_content b.messages hmsgs []
    simp [serveHTTP, hm, htoks, htok, hv, hb, hs, buildPrompt, hpr]

/-- C9 witness: the 405 branch at a concrete GET request. -/
theorem serveHTTP_rejections_witness :
    serveHTTP [("tok".data)] ⟨"GET".data, [], none⟩ (fun _ _ => Except.ok []) = 405 :=
  (serveHTTP_rejections [("tok".data)] ⟨"GET".data, [], none⟩
      (fun _ _ => Except.ok [])).1 (by decide)

/-! ## The quadratic swap sort -/

theorem selPass_length (score : α → Nat) (x : α) (l : List α) :
    ((selPass score x l).2).length = l.length := by
  induction l generalizing x with
  | nil => rfl
  | cons y ys ih =>
    by_cases h : score x < score y
    · simp [selPass, h, ih]
    · simp [selPass, h, ih]

theorem selPass_perm (score : α → Nat) (x : α) (l : List α) :
    (selPass score x l).1 :: (selPass score x l).2 ~ x :: l := by
  induction l generalizing x with
  | nil => exact List.Perm.refl _
  | cons y ys ih =>
    by_cases h : score x < score y
    · simp only [selPass, if_pos h]
      calc (selPass score y ys).1 :: x :: (selPass score y ys).2
          ~ x :: (selPass score y ys).1 :: (selPass score y ys).2 := List.Perm.swap _ _ _
        _ ~ x :: y :: ys := (ih y).cons x
    · simp only [selPass, if_neg h]
      calc (selPass score x ys).1 :: y :: (selPass score x ys).2
          ~ y :: (selPass score x ys).1 :: (selPass score x ys).2 := List.Perm.swap _ _ _
        _ ~ y :: x :: ys := (ih x).cons y
        _ ~ x :: y :: ys := List.Perm.swap _ _ _

theorem selPass_max (score : α → Nat) (x : α) (l : List α) :
    score x ≤ score (selPass score x l).1 ∧
      ∀ y ∈ (selPass score x l).2, score y ≤ score (selPass score x l).1 := by
  induction l generalizing x with
  | nil => exact ⟨le_refl _, by simp [selPass]⟩
  | cons y ys ih =>
    by_cases h : score x < score y
    · obtain ⟨ih1, ih2⟩ := ih y
      simp only [selPass, if_pos h]
      refine ⟨le_trans (le_of_lt h) ih1, ?_⟩
      intro z hz
      rcases List.mem_cons.mp hz with rfl | hz
      · exact le_trans (le_of_lt h) ih1
      · exact ih2 z hz
    · obtain ⟨ih1, ih2⟩ := ih x
      simp only [selPass, if_neg h]
      refine ⟨ih1, ?_⟩
      intro z hz
      rcases List.mem_cons.mp hz with rfl | hz
      · exact le_trans (le_of_not_lt h) ih1
      · exact ih2 z hz

theorem selSortFuel_perm (score : α → Nat) :
    ∀ (fuel : Nat) (l : List α), selSortFuel score fuel l ~ l := by
  intro fuel
  induction fuel with
  | zero => intro l; exact List.Perm.refl _
  | succ n ih =>
    intro l
    cases l with
    | nil => exact List.Perm.refl _
    | cons x xs =>
      simp only [selSortFuel]
      exact ((ih _).cons _).trans (selPass_perm score x xs)

theorem selSortFuel_sorted (score : α → Nat) :
    ∀ (fuel : Nat) (l : List α), l.length ≤ fuel →
      (selSortFuel score fuel l).Pairwise (fun a b => score b ≤ score a) := by
  intro fuel
  induction fuel with
  | zero =>
    intro l hl
    have : l = [] := List.eq_nil_of_length_eq_zero (Nat.le_zero.mp hl)
    subst this
    simp [selSortFuel]
  | succ n ih =>
    intro l hl
    cases l with
    | nil => simp [selSortFuel]
    | cons x xs =>
      simp only [selSortFuel]
      refine List.Pairwise.cons ?_ (ih _ ?_)
      · intro b hb
        have hb2 : b ∈ (selPass score x xs).2 :=
          (selSortFuel_perm score n _).mem_iff.mp hb
        exact (selPass_max score x xs).2 b hb2
      · rw [selPass_length]
        simp only [List.length_cons] at hl
        omega

theorem selSort_perm (score : α → Nat) (l : List α) : selSort score l ~ l :=
  selSortFuel_perm score l.length l

theorem selSort_sorted (score : α → Nat) (l : List α) :
    (selSort score l).Pairwise (fun a b => score b ≤ score a) :=
  selSortFuel_sorted score l.length l (le_refl _)

/-! ## Retrieve output characterization (claims C5 and C2) -/

theorem retrieveSelected_isPrefixOf (l : List MemoryChunk) (k : Nat) :
    retrieveSelected l k <+: l := by
  cases l with
  | nil => simp [retrieveSelected]
  | cons c rest =>
    cases k with
    | zero => simp [retrieveSelected]
    | succ k =>
      simp only [retrieveSelected]
      have h1 : ((rest.take k).takeWhile fun x => 0 < x.score) <+: rest.take k :=
        List.takeWhile_prefix _
      have h2 : rest.take k <+: rest := List.take_prefix _ _
      obtain ⟨t, ht⟩ := h1.trans h2
      exact ⟨t, by simp [ht]⟩

theorem retrieveSelected_length (l : List MemoryChunk) (k : Nat) :
    (retrieveSelected l k).length ≤ k := by
  cases l with
  | nil => simp [retrieveSelected]
  | cons c rest =>
    cases k with
    | zero => simp [retrieveSelected]
    | succ k =>
      simp only [retrieveSelected, List.length_cons]
      have h1 : ((rest.take k).takeWhile fun x => 0 < x.score).length ≤
          (rest.take k).length := (List.takeWhile_sublist _).length_le
      have h2 : (rest.take k).length ≤ k := by
        simp [List.length_take]
      omega

theorem retrieveSelected_tail_pos (l : List MemoryChunk) (k : Nat) :
    ∀ c ∈ (retrieveSelected l k).tail, 0 < c.score := by
  cases l with
  | nil => simp [retrieveSelected]
  | cons c0 rest =>
    cases k with
    | zero => simp [retrieveSelected]
    | succ k =>
      intro c hc
      simp only [retrieveSelected, List.tail_cons] at hc
      simpa using List.mem_takeWhile_imp hc

theorem goJoin_cons_sepConcat (c : MemoryChunk) (rest : List MemoryChunk) :
    goJoin memorySep ((c :: rest).map MemoryChunk.text) = c.text ++ sepConcat rest := by
  induction rest generalizing c with
  | nil => simp [goJoin, sepConcat]
  | cons y ys ih =>
    simp only [List.map_cons, goJoin, sepConcat]
    rw [show (MemoryChunk.text y :: List.map MemoryChunk.text ys) =
      ((y :: ys).map MemoryChunk.text) from rfl, ih y]
    simp [sepConcat, List.append_assoc]

theorem retrieveJoin_tail (rest : List MemoryChunk) :
    ∀ (limit i : Nat), 0 < i →
      retrieveJoin rest limit i =
        sepConcat ((rest.take (limit - i)).takeWhile fun x => 0 < x.score) := by
  induction rest with
  | nil => intro limit i _; simp [retrieveJoin, sepConcat]
  | cons c r ih =>
    intro limit i hi
    by_cases hlim : limit ≤ i
    · have hz : limit - i = 0 := Nat.sub_eq_zero_of_le hlim
      simp [retrieveJoin, hlim, hz, sepConcat]
    · have hsub : limit - i = (limit - (i + 1)) + 1 := by omega
      by_cases hsc : c.score ≤ 0
      · have hnp : ¬ (0 < c.score) := by omega
        simp only [retrieveJoin, if_neg hlim, if_pos (And.intro hsc hi)]
        rw [hsub, List.take_succ_cons]
        simp [List.takeWhile_cons, hnp, sepConcat]
      · have hpos : 0 < c.score := by omega
        have hno : ¬ (c.score ≤ 0 ∧ 0 < i) := by
          intro hcon
          omega
        simp only [retrieveJoin, if_neg hlim, if_neg hno, if_pos hi]
        rw [hsub, List.take_succ_cons, ih limit (i + 1) (by omega)]
        simp [List.takeWhile_cons, hpos, sepConcat, List.append_assoc]

theorem retrieveJoin_zero (l : List MemoryChunk) (limit : Nat) :
    retrieveJoin l limit 0 =
      goJoin memorySep ((retrieveSelected l limit).map MemoryChunk.text) := by
  cases l with
  | nil => simp [retrieveJoin, retrieveSelected, goJoin]
  | cons c rest =>
    cases limit with
    | zero => simp [retrieveJoin, retrieveSelected, goJoin]
    | succ k =>
      have h1 : ¬ ((k : Nat) + 1 ≤ 0) := by omega
      have h2 : ¬ ((c.score ≤ 0) ∧ (0 : Nat) < 0) := by
        intro hcon
        omega
      simp only [retrieveJoin, if_neg h1, if_neg h2, retrieveSelected]
      rw [retrieveJoin_tail rest (k + 1) 1 (by omega), goJoin_cons_sepConcat]
      simp

theorem effLimit_pos (limit : Int) :
    1 ≤ (if limit ≤ 0 then (10 : Nat) else limit.toNat) := by
  by_cases h : limit ≤ 0
  · simp [h]
  · simp only [if_neg h]
    omega

/-- C5: Retrieve returns the empty string on empty long-term content,
and otherwise emits the separator-join of a selection of at most the
effective limit of scored chunks, listed in descending score order, in
which every chunk but the first scores positively and the first emitted
chunk is one of maximal score whenever any chunk exists. -/
theorem retrieve_characterization (longTerm query : GoStr) (limit : Int) :
    (longTerm = [] → retrieve longTerm query limit = []) ∧
    ∃ sel : List MemoryChunk,
      retrieve longTerm query limit = goJoin memorySep (sel.map MemoryChunk.text) ∧
      sel.length ≤ (if limit ≤ 0 then (10 : Nat) else limit.toNat) ∧
      sel.Pairwise (fun a b => b.score ≤ a.score) ∧
      (∀ c ∈ sel, c ∈ scoredChunks longTerm query) ∧
      (∀ c ∈ sel.tail, 0 < c.score) ∧
      (scoredChunks longTerm query ≠ [] →
        ∃ c0, sel.head? = some c0 ∧
          ∀ c ∈ scoredChunks longTerm query, c.score ≤ c0.score) := by
  by_cases hlt : longTerm = []
  · subst hlt
    have hret : retrieve [] query limit = [] := by simp [retrieve]
    have hchunks : scoredChunks [] query = [] := rfl
    refine ⟨fun _ => hret, [], by simpa [goJoin] using hret, by simp, by simp, by simp,
      by simp, fun hne => absurd hchunks hne⟩
  · by_cases hraw : splitMemoryChunks longTerm = []
    · have hret : retrieve longTerm query limit = [] := by
        simp [retrieve, hlt, hraw]
      have hchunks : scoredChunks longTerm query = [] := by
        simp [scoredChunks, scoreQueryChunks, hraw]
      refine ⟨fun h => absurd h hlt, [], by simpa [goJoin] using hret, by simp, by simp,
        by simp, by simp, fun hne => absurd hchunks hne⟩
    · have hret : retrieve longTerm query limit =
          retrieveJoin (selSort MemoryChunk.score (scoredChunks longTerm query))
            (min (if limit ≤ 0 then (10 : Nat) else limit.toNat)
              (selSort MemoryChunk.score (scoredChunks longTerm query)).length) 0 := by
        simp only [retrieve, scoredChunks]
        rw [if_neg hlt, if_neg hraw]
      refine ⟨fun h => absurd h hlt,
        retrieveSelected (selSort MemoryChunk.score (scoredChunks longTerm query))
          (min (if limit ≤ 0 then (10 : Nat) else limit.toNat)
            (selSort MemoryChunk.score (scoredChunks longTerm query)).length),
        ?_, ?_, ?_, ?_, ?_, ?_⟩
      · rw [hret, retrieveJoin_zero]
      · exact le_trans (retrieveSelected_length _ _) (min_le_left _ _)
      · exact List.Pairwise.sublist ((retrieveSelected_isPrefixOf _ _).sublist)
          (selSort_sorted MemoryChunk.score _)
      · intro c hc
        have hmem : c ∈ selSort MemoryChunk.score (scoredChunks longTerm query) :=
          (retrieveSelected_isPrefixOf _ _).sublist.subset hc
        exact (selSort_perm MemoryChunk.score _).subset hmem
      · exact retrieveSelected_tail_pos _ _
      · intro hne
        have hsne : selSort MemoryChunk.score (scoredChunks longTerm query) ≠ [] := by
          intro h0
          apply hne
          have hp := selSort_perm MemoryChunk.score (scoredChunks longTerm query)
          rw [h0] at hp
          exact (List.perm_nil.mp hp.symm)
        obtain ⟨c0, rest, hs⟩ := List.exists_cons_of_ne_nil hsne
        have hlen : 1 ≤ (selSort MemoryChunk.score (scoredChunks longTerm query)).length := by
          rw [hs]
          simp
        have hcap : 1 ≤ min (if limit ≤ 0 then (10 : Nat) else limit.toNat)
            (selSort MemoryChunk.score (scoredChunks longTerm query)).length :=
          le_min (effLimit_pos limit) hlen
        obtain ⟨k, hk⟩ : ∃ k, min (if limit ≤ 0 then (10 : Nat) else limit.toNat)
            (selSort MemoryChunk.score (scoredChunks longTerm query)).length = k + 1 :=
          ⟨min (if limit ≤ 0 then (10 : Nat) else limit.toNat)
            (selSort MemoryChunk.score (scoredChunks longTerm query)).length - 1, by omega⟩
        refine ⟨c0, ?_, ?_⟩
        · rw [hk, hs]
          rfl
        · intro c hcmem
          have hcs : c ∈ selSort MemoryChunk.score (scoredChunks longTerm query) :=
            (selSort_perm MemoryChunk.score _).symm.subset hcmem
          rw [hs] at hcs
          rcases List.mem_cons.mp hcs with rfl | hcr
          · exact le_refl _
          · have hp := selSort_sorted MemoryChunk.score (scoredChunks longTerm query)
            rw [hs] at hp
            exact (List.pairwise_cons.mp hp).1 c hcr

/-- C5 witness: the empty-content conjunct at a concrete query and
limit. -/
theorem retrieve_characterization_witness :
    retrieve [] ("q".data) 5 = [] :=
  (retrieve_characterization [] ("q".data) 5).1 rfl

/-- C2: the swap sort is not stable.  For the long-term content with
chunks "alpha dog", "beta dog", "gamma dog cat" and the query "dog cat",
the first two chunks tie at score 1 (the third scores 12), yet the
emitted order reverses them: beta dog precedes alpha dog in the
output, violating insertion order for tied scores. -/
theorem retrieve_sort_unstable_eval :
    retrieve ("alpha dog\n\nbeta dog\n\ngamma dog cat".data) ("dog cat".data) 10 =
        ("gamma dog cat\n\n---\n\nbeta dog\n\n---\n\nalpha dog".data) ∧
      scoredChunks ("alpha dog\n\nbeta dog\n\ngamma dog cat".data) ("dog cat".data) =
        [⟨"alpha dog".data, 1⟩, ⟨"beta dog".data, 1⟩, ⟨"gamma dog cat".data, 12⟩] := by
  constructor
  · decide
  · decide

/-! ## Turn selection (claim C1)

The skip condition of the top-limit loop requires the index to be
already selected, which never holds the first time an index is seen, so
the loop selects every index and SelectRelevantTurns returns all turns
unchanged. -/

theorem selLoop_subset :
    ∀ (l : List ScoredTurn) (sel : List Nat) (cnt limit : Nat),
      sel ⊆ selLoop l sel cnt limit := by
  intro l
  induction l with
  | nil => intro sel cnt limit; simp [selLoop]
  | cons s rest ih =>
    intro sel cnt limit
    simp only [selLoop]
    split_ifs with h1 h2
    · exact ih sel cnt limit
    · exact ih sel cnt limit
    · exact fun a ha =>
        ih (s.idx :: sel) (cnt + 1) limit (List.mem_cons_of_mem s.idx ha)

theorem selLoop_mem_idx :
    ∀ (l : List ScoredTurn) (sel : List Nat) (cnt limit : Nat) (s : ScoredTurn),
      s ∈ l → s.idx ∈ selLoop l sel cnt limit := by
  intro l
  induction l with
  | nil => intro sel cnt limit s hs; cases hs
  | cons s0 rest ih =>
    intro sel cnt limit s hs
    simp only [selLoop]
    rcases List.mem_cons.mp hs with rfl | hs
    · split_ifs with h1 h2
      · exact selLoop_subset rest sel cnt limit h1.2
      · exact selLoop_subset rest sel cnt limit h2
      · exact selLoop_subset rest (s.idx :: sel) (cnt + 1) limit
          (List.mem_cons_self s.idx sel)
    · split_ifs with h1 h2
      · exact ih _ _ _ s hs
      · exact ih _ _ _ s hs
      · exact ih _ _ _ s hs

theorem buildScored_exists (ql : GoStr) (qw : List GoStr) :
    ∀ (ts : List Turn) (i0 k : Nat), i0 ≤ k → k < i0 + ts.length →
      ∃ s ∈ buildScored ql qw ts i0, s.idx = k := by
  intro ts
  induction ts with
  | nil =>
    intro i0 k h1 h2
    simp only [List.length_nil, Nat.add_zero] at h2
    omega
  | cons t ts ih =>
    intro i0 k h1 h2
    by_cases hk : k = i0
    · exact ⟨⟨t, scoreTurn t.text ql qw, i0⟩, List.mem_cons_self _ _, hk.symm⟩
    · have h1b : i0 + 1 ≤ k := by omega
      have h2b : k < (i0 + 1) + ts.length := by
        simp only [List.length_cons] at h2
        omega
      obtain ⟨s, hs, hidx⟩ := ih (i0 + 1) k h1b h2b
      exact ⟨s, List.mem_cons_of_mem _ hs, hidx⟩

theorem buildOut_all :
    ∀ (ts : List Turn) (i : Nat) (sel : List Nat),
      (∀ j, j < ts.length → (i + j) ∈ sel) → buildOut ts i sel = ts := by
  intro ts
  induction ts with
  | nil => intro i sel _; rfl
  | cons t ts ih =>
    intro i sel hall
    have h0 : i ∈ sel := by simpa using hall 0 (by simp)
    simp only [buildOut, if_pos h0]
    rw [ih (i + 1) sel]
    intro j hj
    have hmem := hall (j + 1) (by simp only [List.length_cons]; omega)
    have harith : i + (j + 1) = (i + 1) + j := by omega
    rwa [harith] at hmem

/-- Supporting theorem for C1: the selection loop never excludes any
turn, so SelectRelevantTurns returns its input list of turns unchanged
for every query, limit, and fallback. -/
theorem selectRelevantTurns_returns_all (turns : List Turn) (query : GoStr)
    (limit fallbackKeep : Int) :
    selectRelevantTurns turns query limit fallbackKeep = turns := by
  simp only [selectRelevantTurns]
  apply buildOut_all
  intro j hj
  obtain ⟨s, hs, hidx⟩ :=
    buildScored_exists (goLower (goTrim query))
      (tokenizeForMatch (goLower (goTrim query))) turns 0 j (by omega)
      (by simpa using hj)
  have hsorted : s ∈ selSort ScoredTurn.score
      (buildScored (goLower (goTrim query))
        (tokenizeForMatch (goLower (goTrim query))) turns 0) :=
    (selSort_perm ScoredTurn.score _).symm.subset hs
  have hloop := selLoop_mem_idx _ [] 0
    (if limit ≤ 0 then 20 else limit.toNat) s hsorted
  rw [hidx] at hloop
  rw [Nat.zero_add]
  exact List.mem_append_left _ hloop

/-- C1: evaluation at the failing input.  Three turns with texts a, b, c
and the query zz (all scores 0), limit 1 and fallback 1: the claim
allows only the top-1 turn (the first) and the fallback turn (the last),
but the code returns all three, including the middle turn that is
outside both sets. -/
theorem selectRelevantTurns_bug_eval :
    selectRelevantTurns [⟨0, 2, "a".data⟩, ⟨2, 4, "b".data⟩, ⟨4, 6, "c".data⟩]
        ("zz".data) 1 1 =
      [⟨0, 2, "a".data⟩, ⟨2, 4, "b".data⟩, ⟨4, 6, "c".data⟩] := by
  decide

/-! ## Turn partitioning invariants (claim C8) -/

theorem scanEndLen_le (l : List Message) : scanEndLen l ≤ l.length := by
  induction l with
  | nil => simp [scanEndLen]
  | cons m ms ih =>
    simp only [scanEndLen]
    by_cases h : m.role = "user".data
    · simp [h]
    · simp only [if_neg h, List.length_cons]
      omega

theorem scanEndLen_no_user (l : List Message) :
    ∀ j, j < scanEndLen l → (l[j]?).map Message.role ≠ some ("user".data) := by
  induction l with
  | nil => intro j hj; simp [scanEndLen] at hj
  | cons m ms ih =>
    intro j hj
    simp only [scanEndLen] at hj
    by_cases h : m.role = "user".data
    · rw [if_pos h] at hj
      omega
    · rw [if_neg h] at hj
      cases j with
      | zero => simpa using h
      | succ j => simpa using ih j (by omega)

theorem scanEndLen_user_stop (l : List Message) :
    ∀ j, (l[j]?).map Message.role = some ("user".data) → scanEndLen l ≤ j := by
  induction l with
  | nil => intro j h; simp at h
  | cons m ms ih =>
    intro j h
    simp only [scanEndLen]
    by_cases hm : m.role = "user".data
    · simp [hm]
    · rw [if_neg hm]
      cases j with
      | zero =>
        simp only [List.getElem?_cons_zero, Option.map_some'] at h
        exact absurd (Option.some.inj h) hm
      | succ j =>
        have := ih j (by simpa using h)
        omega

theorem partGoF_spec (msgs : List Message) :
    ∀ (fuel i : Nat), (msgs.drop i).length ≤ fuel →
      (∀ t ∈ partGoF fuel (msgs.drop i) i,
        i ≤ t.startIndex ∧ t.startIndex < t.endIndex ∧ t.endIndex ≤ msgs.length ∧
        roleAt msgs t.startIndex = some ("user".data) ∧
        ∀ k, t.startIndex < k → k < t.endIndex → roleAt msgs k ≠ some ("user".data)) ∧
      (partGoF fuel (msgs.drop i) i).Pairwise (fun a b => a.endIndex ≤ b.startIndex) ∧
      (∀ k, i ≤ k → k < msgs.length → roleAt msgs k = some ("user".data) →
        (partGoF fuel (msgs.drop i) i).countP (fun t => t.startIndex == k) = 1) := by
  intro fuel
  induction fuel with
  | zero =>
    intro i hlen
    have hnil : msgs.drop i = [] := List.eq_nil_of_length_eq_zero (Nat.le_zero.mp hlen)
    have hle : msgs.length ≤ i := List.drop_eq_nil_iff.mp hnil
    rw [hnil]
    refine ⟨by simp [partGoF], by simp [partGoF], ?_⟩
    intro k hik hk _
    omega
  | succ n ih =>
    intro i hlen
    cases hdrop : msgs.drop i with
    | nil =>
      have hle : msgs.length ≤ i := List.drop_eq_nil_iff.mp hdrop
      refine ⟨by simp [partGoF], by simp [partGoF], ?_⟩
      intro k hik hk _
      omega
    | cons m rest =>
      have hmi : msgs[i]? = some m := by
        have h0 : (msgs.drop i)[0]? = some m := by rw [hdrop]; simp
        rwa [List.getElem?_drop, Nat.add_zero] at h0
      have hrest : msgs.drop (i + 1) = rest := by
        have ht := List.tail_drop msgs i
        rw [hdrop] at ht
        exact ht.symm
      have hilt : i < msgs.length := by
        have : (msgs.drop i).length = rest.length + 1 := by rw [hdrop]; simp
        rw [List.length_drop] at this
        omega
      have hrestlen : rest.length = msgs.length - (i + 1) := by
        rw [← hrest, List.length_drop]
      have hlen2 : msgs.length - i ≤ n + 1 := by
        rw [List.length_drop] at hlen
        exact hlen
      simp only [partGoF]
      by_cases hu : m.role = "user".data
      · rw [if_pos hu]
        have hdrop2 : rest.drop (scanEndLen rest) = msgs.drop (i + 1 + scanEndLen rest) := by
          rw [← hrest, List.drop_drop]
        have hk0le : scanEndLen rest ≤ rest.length := scanEndLen_le rest
        have hfuel2 : (msgs.drop (i + 1 + scanEndLen rest)).length ≤ n := by
          rw [List.length_drop]
          omega
        have hend : i + 1 + scanEndLen rest ≤ msgs.length := by omega
        have hnouser : ∀ k, i < k → k < i + 1 + scanEndLen rest →
            roleAt msgs k ≠ some ("user".data) := by
          intro k hk1 hk2
          have hj : k - (i + 1) < scanEndLen rest := by omega
          have := scanEndLen_no_user rest (k - (i + 1)) hj
          rw [← hrest, List.getElem?_drop] at this
          have harith : i + 1 + (k - (i + 1)) = k := by omega
          rwa [harith] at this
        obtain ⟨ihProps, ihPair, ihCover⟩ := ih (i + 1 + scanEndLen rest) hfuel2
        rw [hdrop2]
        refine ⟨?_, ?_, ?_⟩
        · intro t ht
          rcases List.mem_cons.mp ht with rfl | ht
          · refine ⟨le_refl i, by show i < i + 1 + scanEndLen rest; omega, hend, ?_, ?_⟩
            · simp [roleAt, hmi, hu]
            · intro k hk1 hk2
              exact hnouser k hk1 hk2
          · obtain ⟨h1, h2, h3, h4, h5⟩ := ihProps t ht
            exact ⟨by omega, h2, h3, h4, h5⟩
        · refine List.Pairwise.cons ?_ ihPair
          intro b hb
          exact (ihProps b hb).1
        · intro k hik hk hrole
          rw [List.countP_cons]
          by_cases hki : k = i
          · subst hki
            have hzero : (partGoF n (msgs.drop (k + 1 + scanEndLen rest))
                (k + 1 + scanEndLen rest)).countP (fun t => t.startIndex == k) = 0 := by
              rw [List.countP_eq_zero]
              intro t ht
              have := (ihProps t ht).1
              simp only [beq_iff_eq]
              omega
            simp [hzero]
          · by_cases hk2 : k < i + 1 + scanEndLen rest
            · exact absurd hrole (hnouser k (by omega) hk2)
            · have htail := ihCover k (by omega) hk hrole
              have hhead : ((⟨i, i + 1 + scanEndLen rest,
                  turnText (m :: rest.take (scanEndLen rest))⟩ : Turn).startIndex == k) =
                    false := by
                simp only [beq_eq_false_iff_ne, ne_eq]
                omega
              simp [hhead, htail]
      · rw [if_neg hu]
        have hfuel2 : (msgs.drop (i + 1)).length ≤ n := by
          rw [List.length_drop]
          omega
        obtain ⟨ihProps, ihPair, ihCover⟩ := ih (i + 1) hfuel2
        rw [hrest] at ihProps ihPair ihCover
        refine ⟨?_, ihPair, ?_⟩
        · intro t ht
          obtain ⟨h1, h2, h3, h4, h5⟩ := ihProps t ht
          exact ⟨by omega, h2, h3, h4, h5⟩
        · intro k hik hk hrole
          by_cases hki : k = i
          · subst hki
            have : roleAt msgs k = some m.role := by simp [roleAt, hmi]
            rw [this] at hrole
            exact absurd (Option.some.inj hrole) hu
          · exact ihCover k (by omega) hk hrole

/-- C8: the turns of PartitionTurns have pairwise disjoint ranges, each
range starts at a user message and contains no other user index, and
every user index starts exactly one turn. -/
theorem partitionTurns_invariants (msgs : List Message) :
    (partitionTurns msgs).Pairwise (fun a b =>
      a.endIndex ≤ b.startIndex ∨ b.endIndex ≤ a.startIndex) ∧
    (∀ t ∈ partitionTurns msgs,
      t.startIndex < t.endIndex ∧ t.endIndex ≤ msgs.length ∧
      roleAt msgs t.startIndex = some ("user".data) ∧
      ∀ k, t.startIndex < k → k < t.endIndex → roleAt msgs k ≠ some ("user".data)) ∧
    (∀ k, k < msgs.length → roleAt msgs k = some ("user".data) →
      (partitionTurns msgs).countP (fun t => t.startIndex == k) = 1) := by
  have h := partGoF_spec msgs msgs.length 0 (by simp)
  rw [List.drop_zero] at h
  obtain ⟨hprops, hpair, hcover⟩ := h
  refine ⟨?_, ?_, ?_⟩
  · exact hpair.imp (fun hab => Or.inl hab)
  · intro t ht
    obtain ⟨_, h2, h3, h4, h5⟩ := hprops t ht
    exact ⟨h2, h3, h4, h5⟩
  · intro k hk hrole
    exact hcover k (Nat.zero_le k) hk hrole

/-- C8 witness: turn coverage evaluated on a concrete two-message
conversation. -/
theorem partitionTurns_invariants_witness :
    (partitionTurns [⟨"user".data, "a".data⟩, ⟨"assistant".data, "b".data⟩]).countP
        (fun t => t.startIndex == 0) = 1 :=
  (partitionTurns_invariants
      [⟨"user".data, "a".data⟩, ⟨"assistant".data, "b".data⟩]).2.2 0
    (by decide) (by decide)

end PicoClaw
